import Mathlib

/-!
Verification of the TradingPro chart engine against its specification.

The definitions below are a shallow embedding of the TypeScript sources:

* the OHLCV data model (src/types/trading.ts),
* the Wilder-smoothing RSI computation, its recursive helper
  calculatePreviousAverage, and the candle aggregation used for custom
  timeframes (src/services/yahooFinance.ts),
* the viewport arithmetic (maxCandles / startIndex / endIndex and the pan
  clamp), the pointer-to-index resolution of the tooltip handler, and the
  time-axis coordinate mapping of the two Chart components
  (src/components, the two Chart variants).

JavaScript float64 arithmetic is modelled by exact rationals, machine
integers by Int/Nat.  Fields holding prices, volumes and indicator values
are rationals; timestamps are integers.
-/

namespace TradingPro

/-- Candle interface (src/types/trading.ts): one OHLCV sample.  The field
matching the source field named after the keyword carries a trailing
underscore. -/
structure Candle where
  timestamp : Int
  open_ : ℚ
  high : ℚ
  low : ℚ
  close : ℚ
  volume : ℚ
  deriving DecidableEq

instance : Inhabited Candle := ⟨⟨0, 0, 0, 0, 0, 0⟩⟩

/-- RSIData interface (src/types/trading.ts). -/
structure RSIData where
  timestamp : Int
  value : ℚ
  ma : ℚ
  upperBB : ℚ
  lowerBB : ℚ
  deriving DecidableEq

instance : Inhabited RSIData := ⟨⟨0, 0, 0, 0, 0⟩⟩

/-! ### Oscillator engine: calculateRSI (yahooFinance.ts lines 696-766)

The source pushes `gains[i] = Math.max(0, change)` and
`losses[i] = Math.max(0, -change)` with `change = prices[i] - prices[i-1]`
(and `0` at `i = 0`) while walking the price list.  We materialise the two
arrays up front; entry `i` only depends on `prices[i-1]` and `prices[i]`,
so the values coincide with the incrementally grown arrays of the source. -/

/-- The gains array built by calculateRSI. -/
def gainsOf (prices : List ℚ) : List ℚ :=
  (List.range prices.length).map fun i =>
    if i = 0 then 0 else max 0 (prices.getD i 0 - prices.getD (i - 1) 0)

/-- The losses array built by calculateRSI. -/
def lossesOf (prices : List ℚ) : List ℚ :=
  (List.range prices.length).map fun i =>
    if i = 0 then 0 else max 0 (-(prices.getD i 0 - prices.getD (i - 1) 0))

/-- calculatePreviousAverage (yahooFinance.ts lines 749-766): recursively
recomputes Wilder's smoothed (avgGain, avgLoss) for a given index from the
simple averages at index `period`.  `gains.slice(1, period + 1)` is
`(gains.drop 1).take period`. -/
def calculatePreviousAverage (gains losses : List ℚ) (index period : Nat) : ℚ × ℚ :=
  if index < period then (0, 0)
  else if index = period then
    (((gains.drop 1).take period).sum / (period : ℚ),
     ((losses.drop 1).take period).sum / (period : ℚ))
  else
    let prev := calculatePreviousAverage gains losses (index - 1) period
    ((prev.1 * ((period : ℚ) - 1) + gains.getD index 0) / (period : ℚ),
     (prev.2 * ((period : ℚ) - 1) + losses.getD index 0) / (period : ℚ))
termination_by index
decreasing_by omega

/-- The RSI value pushed at loop index `i` of calculateRSI
(yahooFinance.ts lines 702-743). -/
def rsiAt (prices : List ℚ) (period i : Nat) : ℚ :=
  if i = 0 then 50
  else if i < period then 50
  else
    let gains := gainsOf prices
    let losses := lossesOf prices
    let avg : ℚ × ℚ :=
      if i = period then
        (((gains.drop 1).take period).sum / (period : ℚ),
         ((losses.drop 1).take period).sum / (period : ℚ))
      else
        let prev := calculatePreviousAverage gains losses (i - 1) period
        ((prev.1 * ((period : ℚ) - 1) + gains.getD i 0) / (period : ℚ),
         (prev.2 * ((period : ℚ) - 1) + losses.getD i 0) / (period : ℚ))
    if avg.2 = 0 then 100
    else 100 - 100 / (1 + avg.1 / avg.2)

/-- calculateRSI (yahooFinance.ts line 696): one RSI value per price. -/
def calculateRSI (prices : List ℚ) (period : Nat) : List ℚ :=
  (List.range prices.length).map (rsiAt prices period)

lemma length_calculateRSI (prices : List ℚ) (period : Nat) :
    (calculateRSI prices period).length = prices.length := by
  simp [calculateRSI]

lemma gainsOf_nonneg (prices : List ℚ) : ∀ x ∈ gainsOf prices, 0 ≤ x := by
  intro x hx
  simp only [gainsOf, List.mem_map] at hx
  obtain ⟨i, -, rfl⟩ := hx
  split
  · exact le_refl 0
  · exact le_max_left _ _

lemma lossesOf_nonneg (prices : List ℚ) : ∀ x ∈ lossesOf prices, 0 ≤ x := by
  intro x hx
  simp only [lossesOf, List.mem_map] at hx
  obtain ⟨i, -, rfl⟩ := hx
  split
  · exact le_refl 0
  · exact le_max_left _ _

lemma getD_nonneg {l : List ℚ} (h : ∀ x ∈ l, 0 ≤ x) (i : Nat) : 0 ≤ l.getD i 0 := by
  rcases lt_or_le i l.length with hi | hi
  · rw [List.getD_eq_getElem _ _ hi]
    exact h _ (List.getElem_mem hi)
  · rw [List.getD_eq_default _ _ hi]

lemma dropTake_sum_nonneg {l : List ℚ} (h : ∀ x ∈ l, 0 ≤ x) (p : Nat) :
    0 ≤ ((l.drop 1).take p).sum := by
  refine List.sum_nonneg ?_
  intro x hx
  exact h x (List.mem_of_mem_drop (List.mem_of_mem_take hx))

lemma calculatePreviousAverage_nonneg (gains losses : List ℚ) (period : Nat)
    (hp : 1 ≤ period) (hg : ∀ x ∈ gains, 0 ≤ x) (hl : ∀ x ∈ losses, 0 ≤ x) :
    ∀ index, 0 ≤ (calculatePreviousAverage gains losses index period).1 ∧
      0 ≤ (calculatePreviousAverage gains losses index period).2 := by
  intro index
  induction index using Nat.strong_induction_on with
  | _ index ih =>
    rw [calculatePreviousAverage]
    split
    · simp
    · split
      · constructor
        · exact div_nonneg (dropTake_sum_nonneg hg period) (by positivity)
        · exact div_nonneg (dropTake_sum_nonneg hl period) (by positivity)
      · have hidx : 1 ≤ index := by omega
        have hprev := ih (index - 1) (by omega)
        have hper : (0 : ℚ) ≤ (period : ℚ) - 1 := by
          have : (1 : ℚ) ≤ (period : ℚ) := by exact_mod_cast hp
          linarith
        constructor
        · exact div_nonneg
            (add_nonneg (mul_nonneg hprev.1 hper) (getD_nonneg hg index)) (by positivity)
        · exact div_nonneg
            (add_nonneg (mul_nonneg hprev.2 hper) (getD_nonneg hl index)) (by positivity)

lemma rsiAt_mem_Icc (prices : List ℚ) (period i : Nat) (hp : 1 ≤ period) :
    0 ≤ rsiAt prices period i ∧ rsiAt prices period i ≤ 100 := by
  rw [rsiAt]
  split
  · norm_num
  · split
    · norm_num
    · set gains := gainsOf prices with hgains
      set losses := lossesOf prices with hlosses
      have hg := gainsOf_nonneg prices
      have hl := lossesOf_nonneg prices
      rw [← hgains] at hg
      rw [← hlosses] at hl
      have hper : (0 : ℚ) ≤ (period : ℚ) - 1 := by
        have : (1 : ℚ) ≤ (period : ℚ) := by exact_mod_cast hp
        linarith
      have havg : ∀ avg : ℚ × ℚ,
          (avg = (((gains.drop 1).take period).sum / (period : ℚ),
                  ((losses.drop 1).take period).sum / (period : ℚ)) ∨
           avg = (let prev := calculatePreviousAverage gains losses (i - 1) period
                  ((prev.1 * ((period : ℚ) - 1) + gains.getD i 0) / (period : ℚ),
                   (prev.2 * ((period : ℚ) - 1) + losses.getD i 0) / (period : ℚ)))) →
          0 ≤ avg.1 ∧ 0 ≤ avg.2 := by
        rintro avg (rfl | rfl)
        · exact ⟨div_nonneg (dropTake_sum_nonneg hg period) (by positivity),
            div_nonneg (dropTake_sum_nonneg hl period) (by positivity)⟩
        · have hprev := calculatePreviousAverage_nonneg gains losses period hp hg hl (i - 1)
          exact ⟨div_nonneg
              (add_nonneg (mul_nonneg hprev.1 hper) (getD_nonneg hg i)) (by positivity),
            div_nonneg
              (add_nonneg (mul_nonneg hprev.2 hper) (getD_nonneg hl i)) (by positivity)⟩
      have key : ∀ avg : ℚ × ℚ, 0 ≤ avg.1 → 0 ≤ avg.2 →
          0 ≤ (if avg.2 = 0 then (100 : ℚ) else 100 - 100 / (1 + avg.1 / avg.2)) ∧
          (if avg.2 = 0 then (100 : ℚ) else 100 - 100 / (1 + avg.1 / avg.2)) ≤ 100 := by
        intro avg h1 h2
        split
        · norm_num
        · have hpos : 0 < avg.2 := lt_of_le_of_ne h2 (by
            intro h
            simp_all)
          have hrs : 0 ≤ avg.1 / avg.2 := div_nonneg h1 h2
          have h1rs : (1 : ℚ) ≤ 1 + avg.1 / avg.2 := by linarith
          have hfrac_pos : 0 < 100 / (1 + avg.1 / avg.2) := by positivity
          have hfrac_le : 100 / (1 + avg.1 / avg.2) ≤ 100 :=
            div_le_self (by norm_num) h1rs
          constructor <;> linarith
      split
      · exact key _ (havg _ (Or.inl rfl)).1 (havg _ (Or.inl rfl)).2
      · exact key _ (havg _ (Or.inr rfl)).1 (havg _ (Or.inr rfl)).2

/-- C1.  The oscillator computation with period 14 returns one value per
input close price, and every returned value lies in the closed interval
[0, 100]. -/
theorem calculateRSI_length_range (prices : List ℚ) :
    (calculateRSI prices 14).length = prices.length ∧
    ∀ x ∈ calculateRSI prices 14, 0 ≤ x ∧ x ≤ 100 := by
  refine ⟨length_calculateRSI prices 14, ?_⟩
  intro x hx
  simp only [calculateRSI, List.mem_map] at hx
  obtain ⟨i, -, rfl⟩ := hx
  exact rsiAt_mem_Icc prices 14 i (by norm_num)

/-- Witness for C1 at the concrete price list [1, 2, 3]. -/
theorem calculateRSI_length_range_witness :
    (calculateRSI [(1 : ℚ), 2, 3] 14).length = 3 ∧
    (0 ≤ (50 : ℚ) ∧ (50 : ℚ) ≤ 100) := by
  have h := calculateRSI_length_range [(1 : ℚ), 2, 3]
  have hmem : (50 : ℚ) ∈ calculateRSI [(1 : ℚ), 2, 3] 14 := by
    have : calculateRSI [(1 : ℚ), 2, 3] 14 = [50, 50, 50] := rfl
    rw [this]
    simp
  exact ⟨h.1, h.2 50 hmem⟩

/-! ### C4: behaviour of calculateRSI on a constant price series -/

lemma getD_replicate {n i : Nat} {q d : ℚ} (h : i < n) :
    (List.replicate n q).getD i d = q := by
  rw [List.getD_eq_getElem _ _ (by simpa using h)]
  simp

lemma getD_replicate_zero (n i : Nat) :
    (List.replicate n (0 : ℚ)).getD i 0 = 0 := by
  rcases lt_or_le i n with h | h
  · exact getD_replicate h
  · rw [List.getD_eq_default _ _ (by simpa using h)]

lemma gainsOf_replicate (n : Nat) (q : ℚ) :
    gainsOf (List.replicate n q) = List.replicate n 0 := by
  apply List.ext_getElem
  · simp [gainsOf]
  · intro i h1 h2
    simp only [gainsOf, List.length_replicate] at h1 h2 ⊢
    rw [List.getElem_map, List.getElem_range, List.getElem_replicate]
    have hi : i < n := by simpa using h2
    rcases Nat.eq_zero_or_pos i with rfl | hpos
    · simp
    · rw [if_neg (by omega), getD_replicate hi, getD_replicate (by omega)]
      simp

lemma lossesOf_replicate (n : Nat) (q : ℚ) :
    lossesOf (List.replicate n q) = List.replicate n 0 := by
  apply List.ext_getElem
  · simp [lossesOf]
  · intro i h1 h2
    simp only [lossesOf, List.length_replicate] at h1 h2 ⊢
    rw [List.getElem_map, List.getElem_range, List.getElem_replicate]
    have hi : i < n := by simpa using h2
    rcases Nat.eq_zero_or_pos i with rfl | hpos
    · simp
    · rw [if_neg (by omega), getD_replicate hi, getD_replicate (by omega)]
      simp

lemma calculatePreviousAverage_replicate_zero (n m period : Nat) :
    ∀ index, calculatePreviousAverage (List.replicate n 0) (List.replicate m 0)
      index period = (0, 0) := by
  intro index
  induction index using Nat.strong_induction_on with
  | _ index ih =>
    rw [calculatePreviousAverage]
    split
    · rfl
    · split
      · simp
      · have hidx : 1 ≤ index := by omega
        rw [ih (index - 1) (by omega)]
        simp [getD_replicate_zero]

lemma rsiAt_replicate (q : ℚ) (n i : Nat) :
    rsiAt (List.replicate n q) 14 i = if i < 14 then 50 else 100 := by
  rcases Nat.lt_or_ge i 14 with h | h
  · simp [rsiAt, h]
  · have h0 : ¬ i = 0 := by omega
    have h1 : ¬ i < 14 := by omega
    rcases eq_or_lt_of_le h with heq | hlt
    · simp [rsiAt, gainsOf_replicate, lossesOf_replicate, h0, h1, ← heq]
    · have hne : ¬ i = 14 := by omega
      simp [rsiAt, gainsOf_replicate, lossesOf_replicate, h0, h1, hne,
        calculatePreviousAverage_replicate_zero, getD_replicate_zero]

/-- Shared evaluation of calculateRSI on a constant series: 50 before the
period index, 100 from the period index on. -/
lemma calculateRSI_replicate_getD (q : ℚ) (n i : Nat) (hi : i < n) :
    (calculateRSI (List.replicate n q) 14).getD i 0 =
      if i < 14 then 50 else 100 := by
  have hlen : (calculateRSI (List.replicate n q) 14).length = n := by
    rw [length_calculateRSI, List.length_replicate]
  rw [List.getD_eq_getElem _ _ (by omega)]
  simp only [calculateRSI]
  rw [List.getElem_map, List.getElem_range]
  exact rsiAt_replicate q n i

/-- C4 counterexample.  For the constant series of fifteen 5s (length 15 >
period 14) the RSI output is not all 50: the value at index 14 is 100,
because the flat series reaches the avgLoss = 0 saturation branch. -/
theorem calculateRSI_flat_cex :
    14 < (List.replicate 15 (5 : ℚ)).length ∧
    ¬ (∀ x ∈ calculateRSI (List.replicate 15 (5 : ℚ)) 14, x = 50) := by
  refine ⟨by simp, ?_⟩
  intro h
  have hlen : (calculateRSI (List.replicate 15 (5 : ℚ)) 14).length = 15 := by
    rw [length_calculateRSI, List.length_replicate]
  have h14 : (calculateRSI (List.replicate 15 (5 : ℚ)) 14).getD 14 0 = 100 := by
    rw [calculateRSI_replicate_getD 5 15 14 (by omega)]
    norm_num
  have hmem : (100 : ℚ) ∈ calculateRSI (List.replicate 15 (5 : ℚ)) 14 := by
    rw [List.getD_eq_getElem _ _ (by omega)] at h14
    rw [← h14]
    exact List.getElem_mem _
  have := h 100 hmem
  norm_num at this

/-- C4 amended.  On a constant price series the oscillator does not
stabilise at 50: values at indices below the period 14 are the 50
placeholder, and every value from index 14 on is 100 (avgGain = avgLoss = 0
takes the avgLoss = 0 branch). -/
theorem calculateRSI_flat (q : ℚ) (n i : Nat) (hi : i < n) :
    (calculateRSI (List.replicate n q) 14).getD i 0 =
      if i < 14 then 50 else 100 :=
  calculateRSI_replicate_getD q n i hi

/-- Witness for C4 amended at q = 5, n = 15, i = 14. -/
theorem calculateRSI_flat_witness :
    14 < 15 ∧ (calculateRSI (List.replicate 15 (5 : ℚ)) 14).getD 14 0 = 100 := by
  refine ⟨by norm_num, ?_⟩
  have h := calculateRSI_flat 5 15 14 (by norm_num)
  simpa using h

/-! ### Resampler: aggregateCandles (yahooFinance.ts lines 578-600) -/

/-- The buckets visited by the loop `for (let i = 0; i < candles.length;
i += factor)` with `group = candles.slice(i, i + factor)` (lines 583-584).
For a non-empty list the first bucket is `take factor = c :: cs.take
(factor - 1)` and the next iteration continues on `cs.drop (factor - 1)`;
the loop is only reached with factor ≥ 2. -/
def chunkList {α : Type} (factor : Nat) : List α → List (List α)
  | [] => []
  | c :: cs => (c :: cs.take (factor - 1)) :: chunkList factor (cs.drop (factor - 1))
termination_by l => l.length
decreasing_by simp [List.length_drop]; omega

/-- The aggregated candle of one non-empty bucket (lines 587-594):
timestamp and open from the first element, high the max of highs, low the
min of lows, close from the last element, volume the sum of volumes.  The
empty case is unreachable (empty groups are skipped by the loop). -/
def aggregateGroup : List Candle → Candle
  | [] => default
  | c :: cs =>
    { timestamp := c.timestamp
      open_ := c.open_
      high := cs.foldl (fun m x => max m x.high) c.high
      low := cs.foldl (fun m x => min m x.low) c.low
      close := (cs.getLastD c).close
      volume := (c :: cs).foldl (fun s x => s + x.volume) 0 }

/-- aggregateCandles (lines 578-600): factor ≤ 1 returns the input
unchanged, otherwise each bucket is aggregated. -/
def aggregateCandles (candles : List Candle) (factor : Nat) : List Candle :=
  if factor ≤ 1 then candles
  else (chunkList factor candles).map aggregateGroup

lemma foldl_max_high (cs : List Candle) (a : ℚ) :
    a ≤ cs.foldl (fun m x => max m x.high) a ∧
    (∀ x ∈ cs, x.high ≤ cs.foldl (fun m x => max m x.high) a) ∧
    (cs.foldl (fun m x => max m x.high) a = a ∨
      ∃ x ∈ cs, cs.foldl (fun m x => max m x.high) a = x.high) := by
  induction cs generalizing a with
  | nil => exact ⟨le_refl a, by simp, Or.inl rfl⟩
  | cons y ys ih =>
    simp only [List.foldl_cons]
    obtain ⟨ih1, ih2, ih3⟩ := ih (max a y.high)
    refine ⟨le_trans (le_max_left _ _) ih1, ?_, ?_⟩
    · intro x hx
      rcases List.mem_cons.mp hx with rfl | hx
      · exact le_trans (le_max_right _ _) ih1
      · exact ih2 x hx
    · rcases ih3 with heq | ⟨x, hx, heq⟩
      · rcases le_total a y.high with hle | hle
        · exact Or.inr ⟨y, List.mem_cons_self _ _, by rw [heq, max_eq_right hle]⟩
        · exact Or.inl (by rw [heq, max_eq_left hle])
      · exact Or.inr ⟨x, List.mem_cons_of_mem _ hx, heq⟩

lemma foldl_min_low (cs : List Candle) (a : ℚ) :
    cs.foldl (fun m x => min m x.low) a ≤ a ∧
    (∀ x ∈ cs, cs.foldl (fun m x => min m x.low) a ≤ x.low) ∧
    (cs.foldl (fun m x => min m x.low) a = a ∨
      ∃ x ∈ cs, cs.foldl (fun m x => min m x.low) a = x.low) := by
  induction cs generalizing a with
  | nil => exact ⟨le_refl a, by simp, Or.inl rfl⟩
  | cons y ys ih =>
    simp only [List.foldl_cons]
    obtain ⟨ih1, ih2, ih3⟩ := ih (min a y.low)
    refine ⟨le_trans ih1 (min_le_left _ _), ?_, ?_⟩
    · intro x hx
      rcases List.mem_cons.mp hx with rfl | hx
      · exact le_trans ih1 (min_le_right _ _)
      · exact ih2 x hx
    · rcases ih3 with heq | ⟨x, hx, heq⟩
      · rcases le_total a y.low with hle | hle
        · exact Or.inl (by rw [heq, min_eq_left hle])
        · exact Or.inr ⟨y, List.mem_cons_self _ _, by rw [heq, min_eq_right hle]⟩
      · exact Or.inr ⟨x, List.mem_cons_of_mem _ hx, heq⟩

lemma foldl_add_volume (cs : List Candle) (a : ℚ) :
    cs.foldl (fun s x => s + x.volume) a = a + (cs.map Candle.volume).sum := by
  induction cs generalizing a with
  | nil => simp
  | cons y ys ih => simp [ih, add_assoc]

lemma getLastD_mem {α : Type} : ∀ (t : List α) (a : α), t.getLastD a ∈ a :: t
  | [], a => by simp
  | b :: bs, a => by
    rw [List.getLastD_cons]
    exact List.mem_cons_of_mem _ (getLastD_mem bs b)

/-- Field-level description of one aggregated bucket. -/
lemma aggregateGroup_spec (a : Candle) (t : List Candle) :
    (aggregateGroup (a :: t)).timestamp = ((a :: t).getD 0 default).timestamp ∧
    (aggregateGroup (a :: t)).open_ = ((a :: t).getD 0 default).open_ ∧
    (aggregateGroup (a :: t)).close = ((a :: t).getLastD default).close ∧
    (∀ x ∈ a :: t, x.high ≤ (aggregateGroup (a :: t)).high) ∧
    (aggregateGroup (a :: t)).high ∈ (a :: t).map Candle.high ∧
    (∀ x ∈ a :: t, (aggregateGroup (a :: t)).low ≤ x.low) ∧
    (aggregateGroup (a :: t)).low ∈ (a :: t).map Candle.low ∧
    (aggregateGroup (a :: t)).volume = ((a :: t).map Candle.volume).sum := by
  obtain ⟨hmax1, hmax2, hmax3⟩ := foldl_max_high t a.high
  obtain ⟨hmin1, hmin2, hmin3⟩ := foldl_min_low t a.low
  refine ⟨rfl, rfl, by rw [List.getLastD_cons]; rfl, ?_, ?_, ?_, ?_, ?_⟩
  · intro x hx
    rcases List.mem_cons.mp hx with rfl | hx
    · exact hmax1
    · exact hmax2 x hx
  · rw [List.map_cons]
    show t.foldl (fun m x => max m x.high) a.high ∈ a.high :: t.map Candle.high
    rcases hmax3 with heq | ⟨x, hx, heq⟩
    · rw [heq]
      exact List.mem_cons_self _ _
    · rw [heq]
      exact List.mem_cons_of_mem _ (List.mem_map_of_mem Candle.high hx)
  · intro x hx
    rcases List.mem_cons.mp hx with rfl | hx
    · exact hmin1
    · exact hmin2 x hx
  · rw [List.map_cons]
    show t.foldl (fun m x => min m x.low) a.low ∈ a.low :: t.map Candle.low
    rcases hmin3 with heq | ⟨x, hx, heq⟩
    · rw [heq]
      exact List.mem_cons_self _ _
    · rw [heq]
      exact List.mem_cons_of_mem _ (List.mem_map_of_mem Candle.low hx)
  · show (a :: t).foldl (fun s x => s + x.volume) 0 = _
    rw [foldl_add_volume]
    simp

lemma chunkList_length {α : Type} (f : Nat) (hf : 1 ≤ f) (l : List α) :
    (chunkList f l).length = (l.length + f - 1) / f := by
  induction l using chunkList.induct f with
  | case1 =>
    simp only [chunkList, List.length_nil, Nat.zero_add]
    rw [Nat.div_eq_of_lt (show f - 1 < f by omega)]
  | case2 c cs ih =>
    have hstep : (chunkList f (c :: cs)).length =
        (chunkList f (cs.drop (f - 1))).length + 1 := by
      simp [chunkList]
    rcases le_or_lt (f - 1) cs.length with hle | hlt
    · have hdl : (cs.drop (f - 1)).length = cs.length - (f - 1) :=
        List.length_drop _ _
      have h1 : cs.length - (f - 1) + f - 1 = cs.length := by omega
      have h2 : (cs.length + 1) + f - 1 = cs.length + f := by omega
      have h3 : (cs.length + f) / f = cs.length / f + 1 :=
        Nat.add_div_right _ (by omega)
      rw [hstep, ih, hdl, List.length_cons, h1, h2, h3]
    · have hdl : (cs.drop (f - 1)).length = 0 := by
        rw [List.length_drop]
        omega
      have h2 : (cs.length + 1) + f - 1 = cs.length + f := by omega
      have h4 : (0 + f - 1) / f = 0 := Nat.div_eq_of_lt (by omega)
      have h3 : (cs.length + f) / f = cs.length / f + 1 :=
        Nat.add_div_right _ (by omega)
      have h6 : cs.length / f = 0 := Nat.div_eq_of_lt (by omega)
      rw [hstep, ih, hdl, List.length_cons, h4, h2, h3, h6]

lemma chunkList_getElem {α : Type} (f : Nat) (hf : 1 ≤ f) (l : List α) :
    ∀ (i : Nat) (hi : i < (chunkList f l).length),
      (chunkList f l)[i] = (l.drop (i * f)).take f := by
  induction l using chunkList.induct f with
  | case1 => intro i hi; simp [chunkList] at hi
  | case2 c cs ih =>
    intro i hi
    simp only [chunkList, List.length_cons] at hi ⊢
    match i, hi with
    | 0, hi =>
      rw [List.getElem_cons_zero, Nat.zero_mul, List.drop_zero]
      cases f with
      | zero => omega
      | succ k => simp [List.take_succ_cons]
    | Nat.succ j, hi =>
      rw [List.getElem_cons_succ]
      rw [ih j (by omega)]
      rw [List.drop_drop]
      have hsm : (j + 1) * f = j * f + f := by ring
      have e1 : (j + 1) * f = (j * f + (f - 1)) + 1 := by omega
      rw [e1, List.drop_succ_cons]
      have e2 : j * f + (f - 1) = f - 1 + j * f := by omega
      rw [e2]

lemma chunkList_index_lt {α : Type} (f : Nat) (hf : 1 ≤ f) (l : List α) (i : Nat)
    (hi : i < (chunkList f l).length) : i * f < l.length := by
  rw [chunkList_length f hf] at hi
  have h2 : (i + 1) * f ≤ ((l.length + f - 1) / f) * f :=
    Nat.mul_le_mul_right f hi
  have h3 : ((l.length + f - 1) / f) * f ≤ l.length + f - 1 :=
    Nat.div_mul_le_self _ _
  have h4 : (i + 1) * f = i * f + f := by ring
  omega

lemma chunkList_forall_ne_nil {α : Type} (f : Nat) (l : List α) :
    ∀ g ∈ chunkList f l, g ≠ [] := by
  induction l using chunkList.induct f with
  | case1 => simp [chunkList]
  | case2 c cs ih =>
    intro g hg
    simp only [chunkList, List.mem_cons] at hg
    rcases hg with rfl | hg
    · simp
    · exact ih g hg

lemma chunkList_mem_mem {α : Type} (f : Nat) (l : List α) :
    ∀ g ∈ chunkList f l, ∀ x ∈ g, x ∈ l := by
  induction l using chunkList.induct f with
  | case1 => simp [chunkList]
  | case2 c cs ih =>
    intro g hg x hx
    simp only [chunkList, List.mem_cons] at hg
    rcases hg with rfl | hg
    · rcases List.mem_cons.mp hx with rfl | hx
      · exact List.mem_cons_self _ _
      · exact List.mem_cons_of_mem _ (List.mem_of_mem_take hx)
    · exact List.mem_cons_of_mem _ (List.mem_of_mem_drop (ih g hg x hx))

/-- C2.  aggregateCandles buckets consecutive candles left-to-right into
groups of `factor`, keeps the non-empty trailing partial bucket, returns
ceil(length / factor) candles, returns the input unchanged for factor 1 and
the empty list for empty input, and each output candle takes timestamp and
open from the bucket's first element, close from its last element, the
maximum of the bucket's highs, the minimum of its lows, and the sum of its
volumes. -/
theorem aggregateCandles_spec (candles : List Candle) (f : Nat) (hf : 1 ≤ f) :
    (aggregateCandles candles f).length = (candles.length + f - 1) / f ∧
    (f = 1 → aggregateCandles candles f = candles) ∧
    aggregateCandles [] f = [] ∧
    ∀ i, i < (aggregateCandles candles f).length →
      (candles.drop (i * f)).take f ≠ [] ∧
      ((aggregateCandles candles f).getD i default).timestamp =
        (((candles.drop (i * f)).take f).getD 0 default).timestamp ∧
      ((aggregateCandles candles f).getD i default).open_ =
        (((candles.drop (i * f)).take f).getD 0 default).open_ ∧
      ((aggregateCandles candles f).getD i default).close =
        (((candles.drop (i * f)).take f).getLastD default).close ∧
      (∀ x ∈ (candles.drop (i * f)).take f,
        x.high ≤ ((aggregateCandles candles f).getD i default).high) ∧
      ((aggregateCandles candles f).getD i default).high ∈
        ((candles.drop (i * f)).take f).map Candle.high ∧
      (∀ x ∈ (candles.drop (i * f)).take f,
        ((aggregateCandles candles f).getD i default).low ≤ x.low) ∧
      ((aggregateCandles candles f).getD i default).low ∈
        ((candles.drop (i * f)).take f).map Candle.low ∧
      ((aggregateCandles candles f).getD i default).volume =
        (((candles.drop (i * f)).take f).map Candle.volume).sum := by
  rcases eq_or_lt_of_le hf with hf1 | hf2
  · -- factor = 1: the input is returned unchanged
    have hf1 : f = 1 := hf1.symm
    subst hf1
    have hagg : aggregateCandles candles 1 = candles := by simp [aggregateCandles]
    refine ⟨by rw [hagg]; omega, fun _ => hagg, by simp [aggregateCandles], ?_⟩
    intro i hi
    rw [hagg] at hi
    have hdrop : candles.drop (i * 1) = candles[i] :: candles.drop (i + 1) := by
      rw [Nat.mul_one]
      exact List.drop_eq_getElem_cons hi
    have hbucket : (candles.drop (i * 1)).take 1 = [candles[i]] := by
      rw [hdrop]
      rfl
    have hout : (aggregateCandles candles 1).getD i default = candles[i] := by
      rw [hagg, List.getD_eq_getElem _ _ hi]
    rw [hbucket, hout]
    refine ⟨by simp, rfl, rfl, rfl, ?_, by simp, ?_, by simp, by simp⟩
    · intro x hx
      rcases List.mem_singleton.mp hx with rfl
      exact le_refl _
    · intro x hx
      rcases List.mem_singleton.mp hx with rfl
      exact le_refl _
  · -- factor ≥ 2: buckets are aggregated
    have hagg : aggregateCandles candles f = (chunkList f candles).map aggregateGroup := by
      rw [aggregateCandles, if_neg (by omega)]
    have hlen : (aggregateCandles candles f).length = (candles.length + f - 1) / f := by
      rw [hagg, List.length_map, chunkList_length f hf]
    refine ⟨hlen, fun h => by omega, ?_, ?_⟩
    · rw [aggregateCandles, if_neg (by omega)]
      simp [chunkList]
    · intro i hi
      have hi' : i < (chunkList f candles).length := by
        rw [hagg, List.length_map] at hi
        exact hi
      have hbucket : (chunkList f candles)[i] = (candles.drop (i * f)).take f :=
        chunkList_getElem f hf candles i hi'
      have hout : (aggregateCandles candles f).getD i default =
          aggregateGroup ((candles.drop (i * f)).take f) := by
        rw [hagg, List.getD_eq_getElem _ _ (by rw [List.length_map]; exact hi'),
          List.getElem_map, hbucket]
      have hne : (candles.drop (i * f)).take f ≠ [] := by
        have hlt := chunkList_index_lt f hf candles i hi'
        have hlen2 : 0 < ((candles.drop (i * f)).take f).length := by
          rw [List.length_take, List.length_drop]
          omega
        exact List.length_pos.mp hlen2
      obtain ⟨a, t, hcons⟩ := List.exists_cons_of_ne_nil hne
      rw [hout, hcons]
      exact ⟨by simp, aggregateGroup_spec a t⟩

/-- Witness for C2 on three concrete candles with factor 2. -/
theorem aggregateCandles_spec_witness :
    1 ≤ 2 ∧
    (aggregateCandles [⟨0, 1, 2, 1, 2, 5⟩, ⟨1, 2, 4, 1, 3, 6⟩,
      ⟨2, 3, 5, 2, 4, 7⟩] 2).length = 2 := by
  refine ⟨by norm_num, ?_⟩
  have h := (aggregateCandles_spec
    [⟨0, 1, 2, 1, 2, 5⟩, ⟨1, 2, 4, 1, 3, 6⟩, ⟨2, 3, 5, 2, 4, 7⟩] 2 (by norm_num)).1
  simpa using h

/-- C10.  aggregateCandles preserves the OHLC ordering invariant: if every
input candle has low ≤ min(open, close) and max(open, close) ≤ high, then
so does every output candle, for any factor ≥ 1. -/
theorem aggregateCandles_preserves_ohlc (candles : List Candle) (f : Nat) (hf : 1 ≤ f)
    (hinv : ∀ x ∈ candles, x.low ≤ min x.open_ x.close ∧ max x.open_ x.close ≤ x.high) :
    ∀ y ∈ aggregateCandles candles f,
      y.low ≤ min y.open_ y.close ∧ max y.open_ y.close ≤ y.high := by
  intro y hy
  by_cases hf1 : f ≤ 1
  · rw [aggregateCandles, if_pos hf1] at hy
    exact hinv y hy
  · rw [aggregateCandles, if_neg hf1] at hy
    obtain ⟨g, hgmem, rfl⟩ := List.mem_map.mp hy
    have hgne := chunkList_forall_ne_nil f candles g hgmem
    obtain ⟨a, t, rfl⟩ := List.exists_cons_of_ne_nil hgne
    have hsub : ∀ x ∈ a :: t, x ∈ candles := chunkList_mem_mem f candles _ hgmem
    obtain ⟨-, hop, hcl, hhigh, -, hlow, -, -⟩ := aggregateGroup_spec a t
    have hfirst : ((a :: t).getD 0 default) = a := rfl
    have hlast_mem : (a :: t).getLastD default ∈ a :: t := by
      rw [List.getLastD_cons]
      exact getLastD_mem t a
    have hinv_a := hinv a (hsub a (List.mem_cons_self _ _))
    have hinv_last := hinv _ (hsub _ hlast_mem)
    constructor
    · apply le_min
      · rw [hop, hfirst]
        exact le_trans (hlow a (List.mem_cons_self _ _))
          (le_trans hinv_a.1 (min_le_left _ _))
      · rw [hcl]
        exact le_trans (hlow _ hlast_mem)
          (le_trans hinv_last.1 (min_le_right _ _))
    · apply max_le
      · rw [hop, hfirst]
        exact le_trans (le_trans (le_max_left _ _) hinv_a.2)
          (hhigh a (List.mem_cons_self _ _))
      · rw [hcl]
        exact le_trans (le_trans (le_max_right _ _) hinv_last.2)
          (hhigh _ hlast_mem)

/-- Witness for C10 on a single concrete well-formed candle with factor 1. -/
theorem aggregateCandles_preserves_ohlc_witness :
    (1 : ℚ) ≤ min (2 : ℚ) 2 ∧ max (2 : ℚ) 2 ≤ (3 : ℚ) := by
  have hmem : (⟨0, 2, 3, 1, 2, 10⟩ : Candle) ∈
      aggregateCandles [⟨0, 2, 3, 1, 2, 10⟩] 1 := by
    have h : aggregateCandles [(⟨0, 2, 3, 1, 2, 10⟩ : Candle)] 1 =
        [⟨0, 2, 3, 1, 2, 10⟩] := rfl
    rw [h]
    simp
  have h := aggregateCandles_preserves_ohlc [⟨0, 2, 3, 1, 2, 10⟩] 1 (by norm_num)
    (by
      intro x hx
      rcases List.mem_singleton.mp hx with rfl
      exact ⟨by norm_num, by norm_num⟩)
    _ hmem
  exact h

/-! ### Viewport of the pan-enabled Chart variant (lines 33-36 and the pan
clamp of handleMouseMove, lines 53-67) -/

/-- maxCandles = Math.floor(Math.min(500, 200 / zoomLevel)) (line 33). -/
def maxCandles (zoomLevel : ℚ) : Int :=
  ⌊min (500 : ℚ) (200 / zoomLevel)⌋

/-- startIndex = Math.max(0, Math.min(len - maxCandles, len - maxCandles +
panOffset)) (line 34). -/
def startIndex (len : Nat) (zoomLevel : ℚ) (panOffset : Int) : Int :=
  max 0 (min ((len : Int) - maxCandles zoomLevel)
    ((len : Int) - maxCandles zoomLevel + panOffset))

/-- endIndex = Math.min(len, startIndex + maxCandles) (line 35). -/
def endIndex (len : Nat) (zoomLevel : ℚ) (panOffset : Int) : Int :=
  min (len : Int) (startIndex len zoomLevel panOffset + maxCandles zoomLevel)

/-- The pan clamp applied by handleMouseMove when dragging (lines 59-63):
with maxOffset = Math.max(0, len - maxCandles), the new offset is clamped
to Math.max(-maxOffset, Math.min(0, newOffset)). -/
def panOffsetClamp (len : Nat) (zoomLevel : ℚ) (newOffset : Int) : Int :=
  max (-(max 0 ((len : Int) - maxCandles zoomLevel))) (min 0 newOffset)

lemma maxCandles_nonneg {z : ℚ} (hz : 0 < z) : 0 ≤ maxCandles z := by
  have h1 : (0 : ℚ) < 200 / z := by positivity
  have h2 : (0 : ℚ) ≤ min 500 (200 / z) := le_min (by norm_num) h1.le
  exact Int.floor_nonneg.mpr h2

lemma maxCandles_le_500 (z : ℚ) : maxCandles z ≤ 500 := by
  have h2 : (⌊min (500 : ℚ) (200 / z)⌋ : Int) ≤ ⌊(500 : ℚ)⌋ :=
    Int.floor_le_floor (min_le_left _ _)
  have h3 : (⌊(500 : ℚ)⌋ : Int) = 500 := by
    rw [show (500 : ℚ) = ((500 : Int) : ℚ) by norm_num, Int.floor_intCast]
  rw [maxCandles]
  omega

/-- C3.  For any total length, any positive zoom level and any pan offset,
the derived visible range satisfies 0 ≤ startIndex ≤ endIndex ≤ totalLength
and endIndex - startIndex ≤ 500, and the pan handler clamps any requested
offset into [-(totalLength - windowSize), 0] (the requested offset is never
positive, and when the window fits it never moves past the left edge). -/
theorem viewport_bounds (len : Nat) (z : ℚ) (pan newOffset : Int) (hz : 0 < z) :
    0 ≤ startIndex len z pan ∧
    startIndex len z pan ≤ endIndex len z pan ∧
    endIndex len z pan ≤ (len : Int) ∧
    endIndex len z pan - startIndex len z pan ≤ 500 ∧
    panOffsetClamp len z newOffset ≤ 0 ∧
    (maxCandles z ≤ (len : Int) →
      -((len : Int) - maxCandles z) ≤ panOffsetClamp len z newOffset) := by
  have h0 := maxCandles_nonneg hz
  have h500 := maxCandles_le_500 z
  have hlen : (0 : Int) ≤ (len : Int) := Int.natCast_nonneg len
  rw [startIndex, endIndex, panOffsetClamp, startIndex]
  omega

/-- Witness for C3 at len = 10, zoom 1, pan -3, requested offset -100. -/
theorem viewport_bounds_witness :
    0 < (1 : ℚ) ∧
    (0 ≤ startIndex 10 1 (-3) ∧
      startIndex 10 1 (-3) ≤ endIndex 10 1 (-3) ∧
      endIndex 10 1 (-3) ≤ (10 : Int) ∧
      endIndex 10 1 (-3) - startIndex 10 1 (-3) ≤ 500 ∧
      panOffsetClamp 10 1 (-100) ≤ 0 ∧
      (maxCandles 1 ≤ (10 : Int) →
        -((10 : Int) - maxCandles 1) ≤ panOffsetClamp 10 1 (-100))) :=
  ⟨by norm_num, viewport_bounds 10 1 (-3) (-100) (by norm_num)⟩

/-! ### The 300-candle Chart variant (second Chart component, lines
596-598: maxCandles = Math.floor(300 / zoomLevel), displayCandles =
candles.slice(-maxCandles); wheel handler lines 608-611) -/

/-- maxCandles of the 300-candle variant (line 596). -/
def maxCandles300 (zoomLevel : ℚ) : Int := ⌊(300 : ℚ) / zoomLevel⌋

/-- displayCandles = candles.slice(-maxCandles) (line 597): the last
maxCandles elements; for 1 ≤ maxCandles this is dropping
length - maxCandles elements from the front (the zoom clamp keeps
zoomLevel ≤ 5, hence maxCandles ≥ 60 ≥ 1). -/
def displayCandles300 (candles : List Candle) (zoomLevel : ℚ) : List Candle :=
  candles.drop (candles.length - (maxCandles300 zoomLevel).toNat)

/-- One zoom-in wheel tick (lines 609-611 with delta = 1.1):
zoomLevel := Math.max(0.3, Math.min(5, zoomLevel * 1.1)). -/
def zoomTick300 (zoomLevel : ℚ) : ℚ := max 0.3 (min 5 (zoomLevel * 1.1))

/-- C7.  With zoomLevel = 1 and totalLength = 300, the 300-candle variant
shows exactly the whole range [0, 300); after one zoom-in tick (factor
1.1) the window size shrinks to 272 < 300 and the start index strictly
increases from 0 to 28. -/
theorem scenarioC_zoom :
    maxCandles300 1 = 300 ∧
    (∀ candles : List Candle, candles.length = 300 →
      displayCandles300 candles 1 = candles) ∧
    zoomTick300 1 = 1.1 ∧
    maxCandles300 (zoomTick300 1) = 272 ∧
    maxCandles300 (zoomTick300 1) < maxCandles300 1 ∧
    (∀ candles : List Candle, candles.length = 300 →
      (displayCandles300 candles (zoomTick300 1)).length = 272 ∧
      candles.length - (maxCandles300 (zoomTick300 1)).toNat = 28) := by
  have h300 : maxCandles300 1 = 300 := by
    rw [maxCandles300, div_one,
      show (300 : ℚ) = ((300 : Int) : ℚ) by norm_num, Int.floor_intCast]
  have htick : zoomTick300 1 = 1.1 := by
    rw [zoomTick300, one_mul, min_eq_right (by norm_num),
      max_eq_right (by norm_num)]
  have h272 : maxCandles300 (zoomTick300 1) = 272 := by
    rw [htick, maxCandles300, Int.floor_eq_iff]
    norm_num
  refine ⟨h300, ?_, htick, h272, by omega, ?_⟩
  · intro candles hlen
    rw [displayCandles300, h300, hlen]
    norm_num
  · intro candles hlen
    constructor
    · rw [displayCandles300, h272, List.length_drop, hlen]
      decide
    · rw [hlen, h272]
      decide

/-- Witness for C7 instantiating its quantified parts at a concrete list
of 300 candles. -/
theorem scenarioC_zoom_witness :
    (List.replicate 300 (default : Candle)).length = 300 ∧
    displayCandles300 (List.replicate 300 (default : Candle)) 1 =
      List.replicate 300 (default : Candle) ∧
    (displayCandles300 (List.replicate 300 (default : Candle))
      (zoomTick300 1)).length = 272 := by
  have hlen : (List.replicate 300 (default : Candle)).length = 300 :=
    List.length_replicate 300 _
  exact ⟨hlen, scenarioC_zoom.2.1 _ hlen, (scenarioC_zoom.2.2.2.2.2 _ hlen).1⟩

/-! ### Coordinate mapper: forward time axis (drawCandlestickChart lines
256-261) and inverse x → index (handleMouseMoveChart line 138) -/

/-- x position of candle `i`: marginLeft + i * candleSpacing with
candleSpacing = chartWidth / (len - 1). -/
def candleX (marginLeft chartWidth : ℚ) (len i : Nat) : ℚ :=
  marginLeft + (i : ℚ) * (chartWidth / ((len : ℚ) - 1))

/-- dataIndex = Math.floor((x - marginLeft) / chartWidth * len). -/
def dataIndexOf (marginLeft chartWidth : ℚ) (len : Nat) (x : ℚ) : Int :=
  ⌊(x - marginLeft) / chartWidth * (len : ℚ)⌋

/-- C8.  For a window of size w ≥ 2, positive content width and any index
i ≤ w - 1, inverting the forward time-axis mapping recovers the index up
to one sample: |dataIndexOf (candleX i) - i| ≤ 1. -/
theorem candleX_roundtrip (ml cw : ℚ) (w i : Nat) (hw : 2 ≤ w)
    (hi : i ≤ w - 1) (hcw : 0 < cw) :
    (dataIndexOf ml cw w (candleX ml cw w i) - (i : Int)).natAbs ≤ 1 := by
  have hd : (0 : ℚ) < (w : ℚ) - 1 := by
    have h2 : (2 : ℚ) ≤ (w : ℚ) := by exact_mod_cast hw
    linarith
  have hval : (candleX ml cw w i - ml) / cw * (w : ℚ) =
      (i : ℚ) * (w : ℚ) / ((w : ℚ) - 1) := by
    rw [candleX]
    field_simp
    ring
  have hiq : (i : ℚ) ≤ (w : ℚ) - 1 := by
    have h1 : (i : ℚ) ≤ ((w - 1 : Nat) : ℚ) := by exact_mod_cast hi
    rwa [Nat.cast_sub (by omega), Nat.cast_one] at h1
  have hlow : (i : ℚ) ≤ (i : ℚ) * (w : ℚ) / ((w : ℚ) - 1) := by
    rw [le_div_iff₀ hd]
    have h0i : (0 : ℚ) ≤ (i : ℚ) := Nat.cast_nonneg i
    nlinarith
  have hhigh : (i : ℚ) * (w : ℚ) / ((w : ℚ) - 1) ≤ (i : ℚ) + 1 := by
    rw [div_le_iff₀ hd]
    nlinarith
  have hfl : (i : Int) ≤ dataIndexOf ml cw w (candleX ml cw w i) := by
    rw [dataIndexOf, hval]
    exact Int.le_floor.mpr (by push_cast; exact hlow)
  have hfu : dataIndexOf ml cw w (candleX ml cw w i) ≤ (i : Int) + 1 := by
    rw [dataIndexOf, hval]
    have h1 := Int.floor_le_floor hhigh
    rwa [show ((i : ℚ) + 1) = (((i : Int) + 1 : Int) : ℚ) by push_cast; ring,
      Int.floor_intCast] at h1
  omega

/-- Witness for C8 at ml = 0, cw = 100, w = 3, i = 2. -/
theorem candleX_roundtrip_witness :
    2 ≤ 3 ∧ (dataIndexOf 0 100 3 (candleX 0 100 3 2) - (2 : Int)).natAbs ≤ 1 :=
  ⟨by norm_num,
    candleX_roundtrip 0 100 3 2 (by norm_num) (by norm_num) (by norm_num)⟩

/-! ### Pointer resolver: handleMouseMoveChart (pan-enabled Chart variant,
lines 121-152) -/

/-- The effect of one pointer-move event on the tooltip state: the handler
either leaves the tooltip untouched (early return, or index out of range),
sets visible to false, or populates price/rsi/timestamp with visible
true. -/
inductive TooltipResult where
  | hidden : TooltipResult
  | unchanged : TooltipResult
  | shown (price rsi : ℚ) (timestamp : Int) : TooltipResult
  deriving DecidableEq

/-- handleMouseMoveChart with marginLeft = 80, marginRight = 20 and
chartWidth = rectWidth - 80 - 20 (lines 129-151): no display candles →
early return; x outside [80, 80 + chartWidth] → tooltip hidden; otherwise
dataIndex = floor((x - 80) / chartWidth * length), and the tooltip is
populated (price = close, rsi = `rsiData?.value || 0` which is the stored
value or 0 when the rsi entry is missing, timestamp) only when
0 ≤ dataIndex < length, else the state is left unchanged. -/
def handleMouseMoveChart (x rectWidth : ℚ) (displayCandles : List Candle)
    (displayRsi : List RSIData) : TooltipResult :=
  if displayCandles.length = 0 then TooltipResult.unchanged
  else if x < 80 ∨ 80 + (rectWidth - 80 - 20) < x then TooltipResult.hidden
  else if 0 ≤ dataIndexOf 80 (rectWidth - 80 - 20) displayCandles.length x ∧
      dataIndexOf 80 (rectWidth - 80 - 20) displayCandles.length x <
        (displayCandles.length : Int) then
    TooltipResult.shown
      (displayCandles.getD
        (dataIndexOf 80 (rectWidth - 80 - 20) displayCandles.length x).toNat
        default).close
      (displayRsi.getD
        (dataIndexOf 80 (rectWidth - 80 - 20) displayCandles.length x).toNat
        default).value
      (displayCandles.getD
        (dataIndexOf 80 (rectWidth - 80 - 20) displayCandles.length x).toNat
        default).timestamp
  else TooltipResult.unchanged

/-- C6 counterexample.  At the right content edge the handler does not
clamp: with rectWidth 200 (chartWidth 100), one candle and x = 180 =
marginLeft + chartWidth, the computed index floor(1 * 1) = 1 is out of
range and the tooltip is left unchanged instead of being populated with
the clamped index 0. -/
theorem handleMouseMoveChart_cex :
    handleMouseMoveChart 180 200 [⟨7, 1, 2, 1, 3, 1⟩] [⟨7, 55, 0, 0, 0⟩] =
      TooltipResult.unchanged ∧
    TooltipResult.unchanged ≠ TooltipResult.shown 3 55 7 := by
  constructor
  · have hidx : dataIndexOf 80 (200 - 80 - 20)
        ([(⟨7, 1, 2, 1, 3, 1⟩ : Candle)]).length 180 = 1 := by
      have harg : ((180 : ℚ) - 80) / ((200 : ℚ) - 80 - 20) *
          ((([(⟨7, 1, 2, 1, 3, 1⟩ : Candle)]).length : Nat) : ℚ) = 1 := by
        norm_num
      rw [dataIndexOf, harg, Int.floor_one]
    rw [handleMouseMoveChart, if_neg (by norm_num),
      if_neg (by norm_num), if_neg (by rw [hidx]; norm_num)]
  · intro h
    exact TooltipResult.noConfusion h

/-- C6 amended.  With at least one display candle and positive content
width: x outside the content rectangle (in particular x = 79 =
marginLeft - 1) hides the tooltip; for x inside it the computed index
floor((x - 80)/chartWidth * length) lies in [0, length], the tooltip is
populated with that candle's close, rsi value and timestamp when the index
is < length, and is left unchanged (not clamped) when the index equals
length, which happens exactly at the right edge; x = 80 = marginLeft
resolves to index 0. -/
theorem handleMouseMoveChart_spec (x rectWidth : ℚ) (candles : List Candle)
    (rsi : List RSIData) (hne : candles ≠ []) (hcw : 100 < rectWidth) :
    ((x < 80 ∨ 80 + (rectWidth - 80 - 20) < x) →
      handleMouseMoveChart x rectWidth candles rsi = TooltipResult.hidden) ∧
    (x = 79 →
      handleMouseMoveChart x rectWidth candles rsi = TooltipResult.hidden) ∧
    (80 ≤ x → x ≤ 80 + (rectWidth - 80 - 20) →
      0 ≤ dataIndexOf 80 (rectWidth - 80 - 20) candles.length x ∧
      dataIndexOf 80 (rectWidth - 80 - 20) candles.length x ≤
        (candles.length : Int) ∧
      (dataIndexOf 80 (rectWidth - 80 - 20) candles.length x <
          (candles.length : Int) →
        handleMouseMoveChart x rectWidth candles rsi =
          TooltipResult.shown
            (candles.getD
              (dataIndexOf 80 (rectWidth - 80 - 20) candles.length x).toNat
              default).close
            (rsi.getD
              (dataIndexOf 80 (rectWidth - 80 - 20) candles.length x).toNat
              default).value
            (candles.getD
              (dataIndexOf 80 (rectWidth - 80 - 20) candles.length x).toNat
              default).timestamp) ∧
      (dataIndexOf 80 (rectWidth - 80 - 20) candles.length x =
          (candles.length : Int) →
        handleMouseMoveChart x rectWidth candles rsi =
          TooltipResult.unchanged)) ∧
    (x = 80 →
      handleMouseMoveChart x rectWidth candles rsi =
        TooltipResult.shown (candles.getD 0 default).close
          (rsi.getD 0 default).value (candles.getD 0 default).timestamp) := by
  have hlen0 : ¬ candles.length = 0 := by
    simpa [List.length_eq_zero] using hne
  have hcw0 : (0 : ℚ) < rectWidth - 80 - 20 := by linarith
  refine ⟨?_, ?_, ?_, ?_⟩
  · intro hout
    rw [handleMouseMoveChart, if_neg hlen0, if_pos hout]
  · intro h79
    subst h79
    rw [handleMouseMoveChart, if_neg hlen0, if_pos (Or.inl (by norm_num))]
  · intro h1 h2
    have hv0 : 0 ≤ (x - 80) / (rectWidth - 80 - 20) * ((candles.length : Nat) : ℚ) :=
      mul_nonneg (div_nonneg (by linarith) hcw0.le) (Nat.cast_nonneg _)
    have hv1 : (x - 80) / (rectWidth - 80 - 20) * ((candles.length : Nat) : ℚ) ≤
        ((candles.length : Nat) : ℚ) := by
      have hr : (x - 80) / (rectWidth - 80 - 20) ≤ 1 := by
        rw [div_le_one hcw0]
        linarith
      exact mul_le_of_le_one_left (Nat.cast_nonneg _) hr
    have hidx0 : 0 ≤ dataIndexOf 80 (rectWidth - 80 - 20) candles.length x := by
      rw [dataIndexOf]
      exact Int.floor_nonneg.mpr hv0
    have hidxn : dataIndexOf 80 (rectWidth - 80 - 20) candles.length x ≤
        (candles.length : Int) := by
      rw [dataIndexOf]
      have h3 := Int.floor_le_floor hv1
      rwa [Int.floor_natCast] at h3
    refine ⟨hidx0, hidxn, ?_, ?_⟩
    · intro hlt
      rw [handleMouseMoveChart, if_neg hlen0,
        if_neg (by push_neg; exact ⟨by linarith, by linarith⟩),
        if_pos ⟨hidx0, hlt⟩]
    · intro heq
      rw [handleMouseMoveChart, if_neg hlen0,
        if_neg (by push_neg; exact ⟨by linarith, by linarith⟩),
        if_neg (by
          intro hcontra
          rw [heq] at hcontra
          exact lt_irrefl _ hcontra.2)]
  · intro h80
    subst h80
    have hidx : dataIndexOf 80 (rectWidth - 80 - 20) candles.length 80 = 0 := by
      rw [dataIndexOf,
        show ((80 : ℚ) - 80) / (rectWidth - 80 - 20) *
          ((candles.length : Nat) : ℚ) = 0 by simp,
        Int.floor_zero]
    have hn : 0 < candles.length := List.length_pos.mpr hne
    rw [handleMouseMoveChart, if_neg hlen0,
      if_neg (by push_neg; exact ⟨le_refl _, by linarith⟩), hidx,
      if_pos ⟨le_refl 0, by exact_mod_cast hn⟩]
    rfl

/-- Witness for C6 amended: x = marginLeft on one concrete candle
populates the tooltip from index 0. -/
theorem handleMouseMoveChart_spec_witness :
    handleMouseMoveChart 80 200 [⟨7, 1, 2, 1, 3, 1⟩] [⟨7, 55, 0, 0, 0⟩] =
      TooltipResult.shown 3 55 7 := by
  have h := handleMouseMoveChart_spec 80 200 [⟨7, 1, 2, 1, 3, 1⟩]
    [⟨7, 55, 0, 0, 0⟩] (by simp) (by norm_num)
  simpa using h.2.2.2 rfl

/-! ### Chart-data pipeline: the candle construction and filter of
fetchChartData (yahooFinance.ts lines 648-655) -/

/-- Models `arr[index] || 0` for a quote array: 0 when the entry is
missing (index out of range), null, or zero; the stored value otherwise. -/
def jsAt (arr : List (Option ℚ)) (i : Nat) : ℚ := (arr.getD i none).getD 0

/-- The candles built by fetchChartData: one candle per timestamp (with
`timestamp * 1000` and `quote.field[index] || 0` for the five value
fields), then `.filter(candle => candle.open > 0)` (line 655). -/
def fetchChartDataCandles (timestamps : List Int)
    (openq highq lowq closeq volumeq : List (Option ℚ)) : List Candle :=
  (((List.range timestamps.length).map fun index =>
    ({ timestamp := timestamps.getD index 0 * 1000
       open_ := jsAt openq index
       high := jsAt highq index
       low := jsAt lowq index
       close := jsAt closeq index
       volume := jsAt volumeq index } : Candle))).filter
    fun candle => decide (0 < candle.open_)

/-- Shared evaluation: a row whose open is 5 but whose other quote entries
are null passes the filter as the candle (0, 5, 0, 0, 0, 0). -/
lemma fetchChartDataCandles_null_row :
    fetchChartDataCandles [0] [some 5] [none] [none] [none] [none] =
      [⟨0, 5, 0, 0, 0, 0⟩] := by
  rw [fetchChartDataCandles]
  rw [show List.range ([(0 : Int)]).length = [0] from rfl]
  rw [List.map_cons, List.map_nil, List.filter_cons, List.filter_nil]
  rw [if_pos (by norm_num [jsAt])]
  norm_num [jsAt]

/-- C9 counterexample.  The upstream filter only checks open > 0: the
candle (0, 5, 0, 0, 0, 0) built from a row with null high/low/close passes
the filter although its high, low and close are 0, so the logarithmic draw
pass is applied to non-positive prices. -/
theorem fetchChartData_filter_cex :
    ¬ (∀ cd ∈ fetchChartDataCandles [0] [some 5] [none] [none] [none] [none],
        0 < cd.open_ ∧ 0 < cd.high ∧ 0 < cd.low ∧ 0 < cd.close) := by
  intro h
  have hmem : (⟨0, 5, 0, 0, 0, 0⟩ : Candle) ∈
      fetchChartDataCandles [0] [some 5] [none] [none] [none] [none] := by
    rw [fetchChartDataCandles_null_row]
    simp
  have h2 := (h _ hmem).2.1
  norm_num at h2

/-- C9 amended.  Every candle that passes the fetchChartData filter has
strictly positive open; high, low and close are not checked by the filter
and can be zero or negative. -/
theorem fetchChartData_filter_open_pos (timestamps : List Int)
    (openq highq lowq closeq volumeq : List (Option ℚ)) :
    ∀ cd ∈ fetchChartDataCandles timestamps openq highq lowq closeq volumeq,
      0 < cd.open_ := by
  intro cd hcd
  rw [fetchChartDataCandles] at hcd
  have h := List.of_mem_filter hcd
  simpa using h

/-- Witness for C9 amended on the concrete null-row input. -/
theorem fetchChartData_filter_open_pos_witness :
    0 < ((⟨0, 5, 0, 0, 0, 0⟩ : Candle)).open_ := by
  apply fetchChartData_filter_open_pos [0] [some 5] [none] [none] [none] [none]
  rw [fetchChartDataCandles_null_row]
  simp

/-! ### Cost of the oscillator computation (C5)

calculatePreviousAverage (lines 749-766) takes its two early-return
branches for index ≤ period and otherwise performs exactly one recursive
call at index - 1; calculateRSI (lines 728-729) invokes it twice at
index i - 1 for every loop index i > period and never otherwise.  The
counters below mirror that call structure. -/

/-- Number of invocations of calculatePreviousAverage (the call itself
plus all recursive calls it triggers) when entered at `index`. -/
def prevAvgCalls (period : Nat) : Nat → Nat
  | 0 => 1
  | index + 1 =>
    if index + 1 ≤ period then 1 else 1 + prevAvgCalls period index

/-- Invocations of calculatePreviousAverage performed while computing the
RSI value at loop index `i`: two top-level calls at index i - 1 when
i > period, none otherwise. -/
def rsiStepCalls (period i : Nat) : Nat :=
  if i ≤ period then 0 else 2 * prevAvgCalls period (i - 1)

/-- Total invocations of calculatePreviousAverage over one calculateRSI
pass on n prices. -/
def rsiTotalCalls (n period : Nat) : Nat :=
  ((List.range n).map (rsiStepCalls period)).sum

lemma prevAvgCalls_eq (period : Nat) :
    ∀ index, period ≤ index → prevAvgCalls period index = index - period + 1 := by
  intro index
  induction index with
  | zero =>
    intro h
    have hp : period = 0 := by omega
    subst hp
    rfl
  | succ k ih =>
    intro h
    rw [prevAvgCalls]
    by_cases hc : k + 1 ≤ period
    · rw [if_pos hc]
      omega
    · rw [if_neg hc, ih (by omega)]
      omega

lemma rsiStepCalls_eq (period i : Nat) (h : period < i) :
    rsiStepCalls period i = 2 * (i - period) := by
  rw [rsiStepCalls, if_neg (by omega), prevAvgCalls_eq period (i - 1) (by omega)]
  omega

/-- C5 counterexample.  The per-step cost of the smoothing grows linearly
with the step index (4 invocations at step 16, 30 at step 29) and the
total over 30 prices is 240 invocations of the from-scratch recursive
average: the computation is not a single forward pass with an
(avgGain, avgLoss) accumulator performing O(n) work. -/
theorem rsiCalls_cex :
    rsiStepCalls 14 16 = 4 ∧ rsiStepCalls 14 29 = 30 ∧
    rsiStepCalls 14 16 ≠ rsiStepCalls 14 29 ∧
    rsiTotalCalls 30 14 = 240 ∧ 4 * 30 < rsiTotalCalls 30 14 := by
  refine ⟨by decide, by decide, by decide, by decide, by decide⟩

/-- C5 amended.  The implementation recomputes the prior Wilder averages
recursively from the start at every step: one calculateRSI pass on n
prices performs exactly (n - 1 - period) * (n - period) invocations of
calculatePreviousAverage, a quadratic (not linear) amount of work. -/
theorem rsiTotalCalls_quadratic (n period : Nat) :
    rsiTotalCalls n period = (n - 1 - period) * (n - period) := by
  induction n with
  | zero => simp [rsiTotalCalls, Nat.zero_sub]
  | succ m ih =>
    have hsum : rsiTotalCalls (m + 1) period =
        rsiTotalCalls m period + rsiStepCalls period m := by
      rw [rsiTotalCalls, List.range_succ, List.map_append, List.sum_append]
      simp [rsiTotalCalls]
    by_cases h : m ≤ period
    · have hstep : rsiStepCalls period m = 0 := by
        rw [rsiStepCalls, if_pos h]
      have e1 : m - period = 0 := by omega
      have e2 : m - 1 - period = 0 := by omega
      have e3 : m + 1 - 1 - period = m - period := by omega
      rw [hsum, ih, hstep, e3, e1, e2]
      simp
    · have hstep := rsiStepCalls_eq period m (by omega)
      obtain ⟨b, hb⟩ : ∃ b, m - period = b + 1 := ⟨m - period - 1, by omega⟩
      have h1 : m - 1 - period = b := by omega
      have h2 : m + 1 - 1 - period = b + 1 := by omega
      have h3 : m + 1 - period = b + 2 := by omega
      rw [hsum, ih, hstep, h1, hb, h2, h3]
      ring

end TradingPro
